import Mathlib

/-!
Verification of the adaptive segmentation / resilient batch-transform pipeline
of `WebContentExtractor` (src/script/web_content_extractor.py).

The embedding models:
* HTML documents as a tree type `Html` (text nodes and elements); parsing by
  BeautifulSoup is an external collaborator, so functions that parse a raw
  string take an abstract `parse` parameter, while all tree manipulation done
  by the repository's own code is modelled concretely.
* `_split_html_into_chunks` as `splitHtmlIntoChunks` (lines 175-246).
* the per-chunk transform loop of `_process_html_chunks` (lines 248-331) as
  `tryChunk` (the inner retry `while` loop) and `chunkLoop` (the outer `for`
  loop over the dynamically growing chunk list).
* the consolidation phase of `_process_html_chunks` (lines 334-377) as
  `passLoop` / `consolidateResults`.

Strings are modelled as `List Char`; Python's `len` is `List.length`.
The external LLM service is an oracle indexed by a global call counter;
an exception raised by `llm.invoke` is modelled by `Outcome.err rl tl` where
`rl` means the message contains "429" or "rate_limit" and `tl` means it
contains "Request too large".  `time.sleep` calls are recorded in a wait log.
-/

/-- A parsed HTML tree node: a text node or an element with a tag and
children.  Attributes are not modelled (no claim depends on them). -/
inductive Html where
  | text : List Char → Html
  | elem : String → List Html → Html

mutual

/-- Serialization of one node, as `str(element)` does in BeautifulSoup:
`<tag>` ++ children ++ `</tag>` for elements, the raw text for text nodes. -/
def renderHtml : Html → List Char
  | .text s => s
  | .elem t ch => '<' :: t.data ++ ['>'] ++ renderList ch ++ ('<' :: '/' :: t.data ++ ['>'])

/-- Serialization of a node list (e.g. `str(soup)` for the whole document). -/
def renderList : List Html → List Char
  | [] => []
  | h :: rest => renderHtml h ++ renderList rest

end

/-- Children of a node (`element.find_all` searches below the node itself). -/
def childrenOf : Html → List Html
  | .text _ => []
  | .elem _ ch => ch

mutual

/-- Matching elements inside one node (the node itself included). -/
def findAllHtml (tags : List String) : Html → List Html
  | .text _ => []
  | .elem t ch => (if t ∈ tags then [Html.elem t ch] else []) ++ findAllList tags ch

/-- Model of `soup.find_all([tags])`: all elements whose tag is in `tags`,
in document order (pre-order: an element precedes its descendants). -/
def findAllList (tags : List String) : List Html → List Html
  | [] => []
  | h :: rest => findAllHtml tags h ++ findAllList tags rest

end

/-- Model of `[s[i:i+M] for i in range(0, len(s), M)]` (fixed-size slicing,
used at lines 199, 216, 234 and 241).  Python raises on step `M = 0`; the
model returns `[]` there (the claims assume `M > 0`). -/
def sliceParts (s : List Char) (M : Nat) : List (List Char) :=
  (List.range ((s.length + M - 1) / M)).map fun k => (s.drop (k * M)).take M

/-- The block-level tags searched at line 180. -/
def blockTags : List String :=
  ["div", "section", "article", "main", "p", "h1", "h2", "h3", "h4", "h5", "h6"]

/-- The sub-element tags searched at line 191. -/
def subTags : List String :=
  ["p", "h1", "h2", "h3", "h4", "h5", "h6", "div", "section"]

/-- Inner loop over `sub_elements` of an oversized element (lines 194-214).
State: the emitted `chunks` list and the open accumulator `current_chunk`. -/
def subLoop (M : Nat) : List Html → List (List Char) → List Char → List (List Char) × List Char
  | [], chunks, current => (chunks, current)
  | sub :: rest, chunks, current =>
      let sh := renderHtml sub
      if M < sh.length then
        subLoop M rest (chunks ++ sliceParts sh M) current
      else
        let st :=
          if M < current.length + sh.length then
            (if current = [] then chunks else chunks ++ [current], ([] : List Char))
          else (chunks, current)
        let current2 := st.2 ++ sh
        if M < current2.length then
          subLoop M rest (st.1 ++ [current2]) []
        else
          subLoop M rest st.1 current2

/-- Main loop over `block_elements` (lines 185-224). -/
def elemLoop (M : Nat) : List Html → List (List Char) → List Char → List (List Char) × List Char
  | [], chunks, current => (chunks, current)
  | el :: rest, chunks, current =>
      let eh := renderHtml el
      if M < eh.length then
        let subs := findAllList subTags (childrenOf el)
        if subs.isEmpty then
          elemLoop M rest (chunks ++ sliceParts eh M) current
        else
          let st := subLoop M subs chunks current
          elemLoop M rest st.1 st.2
      else
        if M < current.length + eh.length then
          elemLoop M rest (chunks ++ [current]) eh
        else
          elemLoop M rest chunks (current ++ eh)

/-- Final pass of `_split_html_into_chunks` (lines 237-244): any chunk still
exceeding `M` is re-sliced by fixed byte ranges, others are kept. -/
def finalPass (M : Nat) : List (List Char) → List (List Char)
  | [] => []
  | c :: rest => (if M < c.length then sliceParts c M else [c]) ++ finalPass M rest

/-- Model of `WebContentExtractor._split_html_into_chunks` (lines 175-246).
The input is the already-parsed document (`soup`); `M` is `max_chunk_size`
(default 3000 in the source). -/
def splitHtmlIntoChunks (doc : List Html) (M : Nat) : List (List Char) :=
  let blocks := findAllList blockTags doc
  let st := elemLoop M blocks [] []
  -- line 227: if current_chunk: chunks.append(current_chunk)
  let chunks := if st.2 = [] then st.1 else st.1 ++ [st.2]
  -- lines 232-234: fallback when no chunks were produced
  if chunks = [] then sliceParts (renderList doc) M
  else finalPass M chunks

/-- One service response for `llm.invoke`, as observed by the `try`/`except`
at lines 263-330: `ok payload` is a normal return; `err rl tl` is a raised
exception whose message contains "429" or "rate_limit" iff `rl = true`
(line 297) and contains "Request too large" iff `tl = true` (line 303). -/
inductive Outcome where
  | ok : List Char → Outcome
  | err : (rateLimited : Bool) → (tooLarge : Bool) → Outcome

/-- Python's `str.strip()`: remove leading and trailing whitespace. -/
def stripChars (s : List Char) : List Char :=
  ((s.dropWhile Char.isWhitespace).reverse.dropWhile Char.isWhitespace).reverse

/-- The inline diagnostic marker appended at line 329 for a chunk whose
(non-rate-limit) retries are exhausted; `num` is the 1-based chunk number. -/
def errorComment (num : Nat) : List Char :=
  ("<!-- チャンク " ++ toString num ++ " の処理中にエラーが発生しました -->").data

/-- Tags decomposed by the simple local extraction at line 276. -/
def navCleanTags : List String :=
  ["nav", "header", "footer", "script", "style", "noscript"]

/-- Removal of every element (with its whole subtree, as `decompose` does)
whose tag is in `navCleanTags`, at any depth (lines 276-277). -/
def removeNavTags : List Html → List Html
  | [] => []
  | .text s :: rest => .text s :: removeNavTags rest
  | .elem t ch :: rest =>
      if t ∈ navCleanTags then removeNavTags rest
      else .elem t (removeNavTags ch) :: removeNavTags rest

/-- The no-LLM fallback for chunks longer than 4000 (lines 274-278):
parse the chunk, decompose nav-like tags, serialize.  `parse` stands for
`BeautifulSoup(chunk, 'html.parser')`, an external collaborator. -/
def simpleClean (parse : List Char → List Html) (c : List Char) : List Char :=
  renderList (removeNavTags (parse c))

/-- Helper for `chunk.rfind(">", 0, bound)`: the last index `i` of the list
holding `'>'`, accumulated while scanning left to right. -/
def rfindGtAux : List Char → Nat → Option Nat → Option Nat
  | [], _, acc => acc
  | c :: cs, i, acc => rfindGtAux cs (i + 1) (if c = '>' then some i else acc)

/-- The split position of an oversized chunk (lines 305-309):
`split_point = chunk.rfind(">", 0, half_point) + 1`, and `half_point` when
`rfind` found nothing (so that `split_point <= 0`). -/
def splitPoint (c : List Char) : Nat :=
  let half := c.length / 2
  match rfindGtAux (c.take half) 0 none with
  | some j => j + 1
  | none => half

/-- Retry ceiling `max_retries` (line 254). -/
def maxRetries : Nat := 3

/-- Observable outcome of processing one chunk through the retry `while`
loop (lines 262-330): the appended result if any, the updated call counter,
the chunks inserted at `i+1` (in list order), the contents submitted to the
service, and the `time.sleep` durations in seconds, in order. -/
structure StepOut where
  result : Option (List Char)
  callCt : Nat
  inserted : List (List Char)
  submitted : List (List Char)
  waits : List Nat
deriving DecidableEq

/-- The retry `while` loop for one chunk (lines 262-330).  `hasMore` is
`i < total_chunks - 1` (there are chunks after the current one); `num` is
`i+1`; `retries` and the local variable `chunk` evolve as in the source.
Note that when the loop exits because `retries` reached `max_retries` after
rate-limit errors, `success` is still false and nothing is appended. -/
def tryChunk (oracle : Nat → List Char → Outcome) (parse : List Char → List Html)
    (hasMore : Bool) (num : Nat) (c : List Char) (retries callCt : Nat) : StepOut :=
  if _h : retries < maxRetries then
    -- line 271: if len(chunk) > 4000: simple extraction, no LLM call
    if 4000 < c.length then
      ⟨some (simpleClean parse c), callCt, [], [],
        if hasMore = true ∨ 0 < retries then [2 + retries * 2] else []⟩
    else
      match oracle callCt c with
      | .ok payload =>
          -- lines 281-290: append stripped content, then the pacing sleep
          ⟨some (stripChars payload), callCt + 1, [], [c],
            if hasMore = true ∨ 0 < retries then [2 + retries * 2] else []⟩
      | .err rl tl =>
          if rl = true then
            -- lines 297-300: exponential backoff 15 * 2 ** retries (after increment)
            if tl = true ∧ 1000 < c.length then
              -- lines 303-319: bisect, keep first half, insert second at i+1
              let sp := splitPoint c
              let o := tryChunk oracle parse hasMore num (c.take sp) (retries + 1) (callCt + 1)
              ⟨o.result, o.callCt, o.inserted ++ [c.drop sp], c :: o.submitted,
                15 * 2 ^ (retries + 1) :: o.waits⟩
            else
              let o := tryChunk oracle parse hasMore num c (retries + 1) (callCt + 1)
              ⟨o.result, o.callCt, o.inserted, c :: o.submitted,
                15 * 2 ^ (retries + 1) :: o.waits⟩
          else
            -- lines 320-330: generic error path
            if retries + 1 < maxRetries then
              let o := tryChunk oracle parse hasMore num c (retries + 1) (callCt + 1)
              ⟨o.result, o.callCt, o.inserted, c :: o.submitted, 5 :: o.waits⟩
            else
              ⟨some (errorComment num), callCt + 1, [], [c], []⟩
  else
    ⟨none, callCt, [], [], []⟩
termination_by maxRetries - retries
decreasing_by all_goals omega

/-- Outcome of the outer `for i, chunk in enumerate(chunks)` loop (lines
258-331) on the dynamically growing chunk list: the chunks in their final
order (`chunks[i]` keeps its original content; inserted halves follow it),
the appended `results`, the submissions, the sleeps, and the call counter. -/
structure LoopOut where
  chunksOut : List (List Char)
  results : List (List Char)
  submitted : List (List Char)
  waits : List Nat
  callCt : Nat
deriving DecidableEq

/-- Total character count of a chunk list (termination measure helper). -/
def sumLen (l : List (List Char)) : Nat := (l.map List.length).sum

lemma rfindGtAux_spec : ∀ (l : List Char) (i : Nat) (acc : Option Nat) (j : Nat),
    rfindGtAux l i acc = some j → acc = some j ∨ (i ≤ j ∧ j < i + l.length) := by
  intro l
  induction l with
  | nil => intro i acc j h; exact Or.inl h
  | cons c cs ih =>
      intro i acc j h
      rcases ih (i + 1) _ j h with h' | h'
      · by_cases hc : c = '>'
        · simp only [if_pos hc] at h'
          injection h' with h''
          right
          simp only [List.length_cons]
          omega
        · simp only [if_neg hc] at h'
          exact Or.inl h'
      · right
        simp only [List.length_cons]
        omega

lemma splitPoint_le_half (c : List Char) : splitPoint c ≤ c.length / 2 := by
  unfold splitPoint
  cases h : rfindGtAux (c.take (c.length / 2)) 0 none with
  | none => simp only [h]; exact le_rfl
  | some j =>
      simp only [h]
      rcases rfindGtAux_spec _ _ _ _ h with h' | h'
      · exact absurd h' (by simp)
      · have := c.length_take (c.length / 2)
        omega

lemma splitPoint_pos (c : List Char) (h : 2 ≤ c.length) : 1 ≤ splitPoint c := by
  unfold splitPoint
  cases hr : rfindGtAux (c.take (c.length / 2)) 0 none with
  | none => simp only [hr]; omega
  | some j => simp only [hr]; omega

lemma tryChunk_stop (oracle parse hasMore num c retries callCt)
    (h : ¬ retries < maxRetries) :
    tryChunk oracle parse hasMore num c retries callCt = ⟨none, callCt, [], [], []⟩ := by
  rw [tryChunk]
  simp [h]

lemma tryChunk_big (oracle parse hasMore num c retries callCt)
    (h1 : retries < maxRetries) (h2 : 4000 < c.length) :
    tryChunk oracle parse hasMore num c retries callCt =
      ⟨some (simpleClean parse c), callCt, [], [],
        if hasMore = true ∨ 0 < retries then [2 + retries * 2] else []⟩ := by
  rw [tryChunk]
  simp [h1, h2]

lemma tryChunk_ok (oracle parse hasMore num c retries callCt payload)
    (h1 : retries < maxRetries) (h2 : ¬ 4000 < c.length)
    (h3 : oracle callCt c = .ok payload) :
    tryChunk oracle parse hasMore num c retries callCt =
      ⟨some (stripChars payload), callCt + 1, [], [c],
        if hasMore = true ∨ 0 < retries then [2 + retries * 2] else []⟩ := by
  rw [tryChunk]
  simp [h1, h2, h3]

lemma tryChunk_rl_split (oracle parse hasMore num c retries callCt tl)
    (h1 : retries < maxRetries) (h2 : ¬ 4000 < c.length)
    (h3 : oracle callCt c = .err true tl) (h4 : tl = true ∧ 1000 < c.length) :
    tryChunk oracle parse hasMore num c retries callCt =
      ⟨(tryChunk oracle parse hasMore num (c.take (splitPoint c)) (retries + 1) (callCt + 1)).result,
       (tryChunk oracle parse hasMore num (c.take (splitPoint c)) (retries + 1) (callCt + 1)).callCt,
       (tryChunk oracle parse hasMore num (c.take (splitPoint c)) (retries + 1) (callCt + 1)).inserted
         ++ [c.drop (splitPoint c)],
       c :: (tryChunk oracle parse hasMore num (c.take (splitPoint c)) (retries + 1) (callCt + 1)).submitted,
       15 * 2 ^ (retries + 1) ::
         (tryChunk oracle parse hasMore num (c.take (splitPoint c)) (retries + 1) (callCt + 1)).waits⟩ := by
  rw [tryChunk]
  simp [h1, h2, h3, h4]

lemma tryChunk_rl_same (oracle parse hasMore num c retries callCt tl)
    (h1 : retries < maxRetries) (h2 : ¬ 4000 < c.length)
    (h3 : oracle callCt c = .err true tl) (h4 : ¬ (tl = true ∧ 1000 < c.length)) :
    tryChunk oracle parse hasMore num c retries callCt =
      ⟨(tryChunk oracle parse hasMore num c (retries + 1) (callCt + 1)).result,
       (tryChunk oracle parse hasMore num c (retries + 1) (callCt + 1)).callCt,
       (tryChunk oracle parse hasMore num c (retries + 1) (callCt + 1)).inserted,
       c :: (tryChunk oracle parse hasMore num c (retries + 1) (callCt + 1)).submitted,
       15 * 2 ^ (retries + 1) ::
         (tryChunk oracle parse hasMore num c (retries + 1) (callCt + 1)).waits⟩ := by
  rw [tryChunk]
  simp [h1, h2, h3, h4]

lemma tryChunk_err_retry (oracle parse hasMore num c retries callCt tl)
    (h1 : retries < maxRetries) (h2 : ¬ 4000 < c.length)
    (h3 : oracle callCt c = .err false tl) (h5 : retries + 1 < maxRetries) :
    tryChunk oracle parse hasMore num c retries callCt =
      ⟨(tryChunk oracle parse hasMore num c (retries + 1) (callCt + 1)).result,
       (tryChunk oracle parse hasMore num c (retries + 1) (callCt + 1)).callCt,
       (tryChunk oracle parse hasMore num c (retries + 1) (callCt + 1)).inserted,
       c :: (tryChunk oracle parse hasMore num c (retries + 1) (callCt + 1)).submitted,
       5 :: (tryChunk oracle parse hasMore num c (retries + 1) (callCt + 1)).waits⟩ := by
  rw [tryChunk]
  simp [h1, h2, h3, h5]

lemma tryChunk_err_last (oracle parse hasMore num c retries callCt tl)
    (h1 : retries < maxRetries) (h2 : ¬ 4000 < c.length)
    (h3 : oracle callCt c = .err false tl) (h5 : ¬ retries + 1 < maxRetries) :
    tryChunk oracle parse hasMore num c retries callCt =
      ⟨some (errorComment num), callCt + 1, [], [c], []⟩ := by
  rw [tryChunk]
  simp [h1, h2, h3, h5]

lemma take_splitPoint_length (c : List Char) (h : 1000 < c.length) :
    (c.take (splitPoint c)).length = splitPoint c := by
  rw [List.length_take]
  have := splitPoint_le_half c
  omega

lemma tryChunk_inserted_size (oracle parse hasMore num) :
    ∀ (c : List Char) (retries callCt : Nat),
      (tryChunk oracle parse hasMore num c retries callCt).inserted = [] ∨
        sumLen (tryChunk oracle parse hasMore num c retries callCt).inserted < c.length := by
  intro c retries callCt
  induction c, retries, callCt using tryChunk.induct oracle parse hasMore num with
  | case1 c retries callCt h1 h2 =>
      rw [tryChunk_big oracle parse hasMore num c retries callCt h1 h2]
      exact Or.inl rfl
  | case2 c retries callCt h1 h2 payload hor =>
      rw [tryChunk_ok oracle parse hasMore num c retries callCt payload h1 h2 hor]
      exact Or.inl rfl
  | case3 c retries callCt h1 h2 tl hcond sp hor ih =>
      rw [tryChunk_rl_split oracle parse hasMore num c retries callCt tl h1 h2 hor hcond]
      right
      have hpos : 1 ≤ splitPoint c := splitPoint_pos c (by omega)
      have hhalf : splitPoint c ≤ c.length / 2 := splitPoint_le_half c
      have htake := take_splitPoint_length c hcond.2
      have hdrop : (c.drop (splitPoint c)).length = c.length - splitPoint c :=
        List.length_drop ..
      have hsp : sp = splitPoint c := rfl
      rw [hsp] at ih
      rcases ih with h' | h'
      · simp only [sumLen, h', List.map_append, List.sum_append, List.map_cons,
          List.map_nil, List.sum_cons, List.sum_nil, List.map, List.sum]
        simp [hdrop]
        omega
      · simp only [sumLen, List.map_append, List.sum_append, List.map_cons,
          List.map_nil, List.sum_cons, List.sum_nil] at h' ⊢
        rw [htake] at h'
        omega
  | case4 c retries callCt h1 h2 tl hcond hor ih =>
      rw [tryChunk_rl_same oracle parse hasMore num c retries callCt tl h1 h2 hor hcond]
      exact ih
  | case5 c retries callCt h1 h2 rl tl hor hrl hret ih =>
      have hrl' : rl = false := by simpa using hrl
      rw [hrl'] at hor
      rw [tryChunk_err_retry oracle parse hasMore num c retries callCt tl h1 h2 hor hret]
      exact ih
  | case6 c retries callCt h1 h2 rl tl hor hrl hret =>
      have hrl' : rl = false := by simpa using hrl
      rw [hrl'] at hor
      rw [tryChunk_err_last oracle parse hasMore num c retries callCt tl h1 h2 hor hret]
      exact Or.inl rfl
  | case7 c retries callCt h1 =>
      rw [tryChunk_stop oracle parse hasMore num c retries callCt h1]
      exact Or.inl rfl

lemma tryChunk_inserted_len (oracle parse hasMore num) :
    ∀ (c : List Char) (retries callCt : Nat),
      (tryChunk oracle parse hasMore num c retries callCt).inserted.length ≤
        maxRetries - retries := by
  intro c retries callCt
  induction c, retries, callCt using tryChunk.induct oracle parse hasMore num with
  | case1 c retries callCt h1 h2 =>
      rw [tryChunk_big oracle parse hasMore num c retries callCt h1 h2]
      simp
  | case2 c retries callCt h1 h2 payload hor =>
      rw [tryChunk_ok oracle parse hasMore num c retries callCt payload h1 h2 hor]
      simp
  | case3 c retries callCt h1 h2 tl hcond sp hor ih =>
      rw [tryChunk_rl_split oracle parse hasMore num c retries callCt tl h1 h2 hor hcond]
      have hsp : sp = splitPoint c := rfl
      rw [hsp] at ih
      simp only [List.length_append, List.length_cons, List.length_nil]
      omega
  | case4 c retries callCt h1 h2 tl hcond hor ih =>
      rw [tryChunk_rl_same oracle parse hasMore num c retries callCt tl h1 h2 hor hcond]
      simp only
      omega
  | case5 c retries callCt h1 h2 rl tl hor hrl hret ih =>
      have hrl' : rl = false := by simpa using hrl
      rw [hrl'] at hor
      rw [tryChunk_err_retry oracle parse hasMore num c retries callCt tl h1 h2 hor hret]
      simp only
      omega
  | case6 c retries callCt h1 h2 rl tl hor hrl hret =>
      have hrl' : rl = false := by simpa using hrl
      rw [hrl'] at hor
      rw [tryChunk_err_last oracle parse hasMore num c retries callCt tl h1 h2 hor hret]
      simp
  | case7 c retries callCt h1 =>
      rw [tryChunk_stop oracle parse hasMore num c retries callCt h1]
      simp

lemma sumLen_append (a b : List (List Char)) :
    sumLen (a ++ b) = sumLen a + sumLen b := by
  simp [sumLen]

lemma chunkLoop_measure_lt (oracle parse hasMore num) (c : List Char)
    (callCt : Nat) (rest : List (List Char)) :
    4 * sumLen ((tryChunk oracle parse hasMore num c 0 callCt).inserted ++ rest) +
      ((tryChunk oracle parse hasMore num c 0 callCt).inserted ++ rest).length <
    4 * sumLen (c :: rest) + (c :: rest).length := by
  have hlen := tryChunk_inserted_len oracle parse hasMore num c 0 callCt
  have hsum := tryChunk_inserted_size oracle parse hasMore num c 0 callCt
  rw [sumLen_append]
  have hc : sumLen (c :: rest) = c.length + sumLen rest := by
    simp [sumLen]
  rw [hc]
  simp only [List.length_append, List.length_cons]
  rcases hsum with h | h
  · simp only [h, sumLen, List.map_nil, List.sum_nil, List.length_nil]
    omega
  · have hmax : maxRetries = 3 := rfl
    rw [hmax] at hlen
    omega

/-- The outer `for i, chunk in enumerate(chunks)` loop (lines 258-331).
`pending` is the part of the (growing) chunk list from index `i` on; Python's
`enumerate` on the mutated list visits inserted elements, so each recursive
step continues on `inserted ++ rest`.  `chunks[i]` itself is never mutated
(only the local variable `chunk` is reassigned on bisection), so the final
chunk list contains the original chunk followed by its inserted halves. -/
def chunkLoop (oracle : Nat → List Char → Outcome) (parse : List Char → List Html) :
    List (List Char) → Nat → Nat → LoopOut
  | [], _, callCt => ⟨[], [], [], [], callCt⟩
  | c :: rest, i, callCt =>
      let s := tryChunk oracle parse (!rest.isEmpty) (i + 1) c 0 callCt
      let sub := chunkLoop oracle parse (s.inserted ++ rest) (i + 1) s.callCt
      ⟨c :: sub.chunksOut,
       (match s.result with | some r => [r] | none => []) ++ sub.results,
       s.submitted ++ sub.submitted,
       s.waits ++ sub.waits,
       sub.callCt⟩
termination_by pending _ _ => 4 * sumLen pending + pending.length
decreasing_by
  exact chunkLoop_measure_lt oracle parse (!rest.isEmpty) (i + 1) c callCt rest

/-- Batch size for the consolidation pass (line 338). -/
def batchSize : Nat := 5

/-- Result of the consolidation phase: the final returned string and the
fragment lists handed to each `llm.invoke` consolidation call, in order. -/
structure ReduceOut where
  document : List Char
  batches : List (List (List Char))
deriving DecidableEq

/-- One response of the consolidation service: `some payload` for a normal
return of `llm.invoke`, `none` for a raised exception (line 356 / 369). -/
abbrev ConsolidateOracle := Nat → List (List Char) → Option (List Char)

/-- The batched consolidation loop (lines 340-359):
`for i in range(0, len(results), batch_size)` with `batch =
results[i:i+batch_size]`, modelled over the batch numbers `j` (`i = j *
batch_size`).  Produces the consolidated fragments (stripped payload on
success, `"\n".join(batch)` on failure, lines 349/359), the submitted
batches, and the next call index (one service call per batch). -/
def passLoop (oracle : ConsolidateOracle) (k0 : Nat) (results : List (List Char)) :
    List (List Char) × List (List (List Char)) × Nat :=
  let count := (results.length + batchSize - 1) / batchSize
  ((List.range count).map fun j =>
      match oracle (k0 + j) ((results.drop (j * batchSize)).take batchSize) with
      | some payload => stripChars payload
      | none => List.intercalate ['\n'] ((results.drop (j * batchSize)).take batchSize),
   (List.range count).map fun j => (results.drop (j * batchSize)).take batchSize,
   k0 + count)

/-- Message returned when there are no results at all (line 377). -/
def noContentMsg : List Char := "メインコンテンツを抽出できませんでした。".data

/-- The result-combination phase of `_process_html_chunks` (lines 334-377):
one batched pass over the results, then — if more than one consolidated
fragment remains — a single final consolidation call over all of them. -/
def consolidateResults (oracle : ConsolidateOracle) (results : List (List Char)) :
    ReduceOut :=
  if 1 < results.length then
    let p := passLoop oracle 0 results
    if 1 < p.1.length then
      match oracle p.2.2 p.1 with
      | some payload => ⟨stripChars payload, p.2.1 ++ [p.1]⟩
      | none => ⟨List.intercalate ['\n'] p.1, p.2.1 ++ [p.1]⟩
    else
      ⟨p.1.getD 0 [], p.2.1⟩
  else if ¬ results.isEmpty then
    ⟨results.getD 0 [], []⟩
  else
    ⟨noContentMsg, []⟩

/-- Full model of `_process_html_chunks` (lines 248-377): the transform loop
over the growing chunk list followed by the consolidation phase. -/
def processHtmlChunks (oracle : Nat → List Char → Outcome)
    (cOracle : ConsolidateOracle) (parse : List Char → List Html)
    (chunks : List (List Char)) : ReduceOut :=
  consolidateResults cOracle (chunkLoop oracle parse chunks 0 0).results

/-- The positional grouping `results[i:i+batch_size]` for
`i in range(0, len(results), batch_size)`, as a standalone characterisation
of the batches produced by one pass. -/
def positionalBatches : List (List Char) → List (List (List Char))
  | [] => []
  | r :: rs => ((r :: rs).take batchSize) :: positionalBatches ((r :: rs).drop batchSize)
termination_by l => l.length
decreasing_by
  simp only [List.drop, List.length_drop, List.length_cons]
  omega

lemma sliceParts_le (s : List Char) (M : Nat) :
    ∀ p ∈ sliceParts s M, p.length ≤ M := by
  intro p hp
  rcases List.mem_map.mp hp with ⟨k, _, rfl⟩
  rw [List.length_take]
  omega

lemma sliceParts_nil (M : Nat) : sliceParts [] M = [] := by
  unfold sliceParts
  have h0 : (List.length ([] : List Char) + M - 1) / M = 0 := by
    rcases Nat.eq_zero_or_pos M with h | h
    · simp [h]
    · exact Nat.div_eq_of_lt (by simp; omega)
  rw [h0]
  rfl

lemma sliceParts_cons (s : List Char) (M : Nat) (hs : s ≠ []) (hM : 0 < M) :
    sliceParts s M = s.take M :: sliceParts (s.drop M) M := by
  have hn : 1 ≤ s.length := List.length_pos.mpr hs
  have hcnt : (s.length + M - 1) / M = ((s.drop M).length + M - 1) / M + 1 := by
    rw [List.length_drop]
    rcases le_or_lt s.length M with hle | hlt
    · have h1 : s.length + M - 1 = (s.length - 1) + M := by omega
      have h2 : s.length - M = 0 := by omega
      rw [h1, Nat.add_div_right _ hM, h2]
      have h3 : (s.length - 1) / M = 0 := Nat.div_eq_of_lt (by omega)
      have h4 : (0 + M - 1) / M = 0 := Nat.div_eq_of_lt (by omega)
      rw [h3, h4]
    · have h1 : s.length + M - 1 = (s.length - 1 - M) + M + M := by omega
      have h2 : s.length - M + M - 1 = (s.length - 1 - M) + M := by omega
      rw [h1, h2, Nat.add_div_right _ hM, Nat.add_div_right _ hM]
  unfold sliceParts
  rw [hcnt, List.range_succ_eq_map, List.map_cons, List.map_map]
  congr 1
  · simp
  · apply List.map_congr_left
    intro k _
    simp only [Function.comp_apply, List.drop_drop]
    congr 1
    rw [Nat.succ_mul]
    ring_nf

lemma sliceParts_join (M : Nat) (hM : 0 < M) :
    ∀ s : List Char, (sliceParts s M).flatten = s := by
  suffices H : ∀ (n : Nat) (s : List Char), s.length ≤ n → (sliceParts s M).flatten = s by
    intro s
    exact H s.length s le_rfl
  intro n
  induction n with
  | zero =>
      intro s h
      have hs : s = [] := List.length_eq_zero.mp (by omega)
      rw [hs, sliceParts_nil]
      rfl
  | succ n ih =>
      intro s h
      rcases eq_or_ne s [] with rfl | hs
      · rw [sliceParts_nil]; rfl
      · rw [sliceParts_cons s M hs hM]
        have hlen : (s.drop M).length ≤ n := by
          rw [List.length_drop]
          have : 1 ≤ s.length := List.length_pos.mpr hs
          omega
        rw [List.flatten_cons, ih _ hlen, List.take_append_drop]

lemma finalPass_le (M : Nat) : ∀ l, ∀ c ∈ finalPass M l, c.length ≤ M := by
  intro l
  induction l with
  | nil => intro c hc; simp [finalPass] at hc
  | cons b rest ih =>
      intro c hc
      rw [finalPass] at hc
      rcases List.mem_append.mp hc with h | h
      · by_cases hb : M < b.length
        · rw [if_pos hb] at h
          exact sliceParts_le b M c h
        · rw [if_neg hb] at h
          rcases List.mem_singleton.mp h with rfl
          omega
      · exact ih c h

lemma finalPass_id (M : Nat) : ∀ l, (∀ c ∈ l, c.length ≤ M) → finalPass M l = l := by
  intro l
  induction l with
  | nil => intro _; rfl
  | cons b rest ih =>
      intro h
      rw [finalPass, if_neg (by have := h b (by simp); omega), ih (fun c hc => h c (by simp [hc]))]
      rfl

/-- A document is "flat" for limit `M` when each of its top-level nodes is a
block element, no strict descendant is a block element, and each top-level
element serializes to at most `M` characters.  This is the regime in which
the segmenter's main loop sees exactly the top-level elements. -/
def flatBlockOk (M : Nat) : Html → Bool
  | .text _ => false
  | .elem t ch =>
      decide (t ∈ blockTags) && (findAllList blockTags ch).isEmpty &&
        decide ((renderHtml (Html.elem t ch)).length ≤ M)

lemma findAllList_flat (M : Nat) :
    ∀ doc : List Html, (∀ b ∈ doc, flatBlockOk M b = true) →
      findAllList blockTags doc = doc := by
  intro doc
  induction doc with
  | nil => intro _; rfl
  | cons b rest ih =>
      intro h
      have hb := h b (by simp)
      rw [findAllList]
      cases b with
      | text s => simp [flatBlockOk] at hb
      | elem t ch =>
          simp only [flatBlockOk, Bool.and_eq_true, decide_eq_true_eq,
            List.isEmpty_iff] at hb
          rw [findAllHtml, if_pos hb.1.1, hb.1.2]
          rw [ih (fun x hx => h x (by simp [hx]))]
          rfl

lemma elemLoop_flat (M : Nat) :
    ∀ (blocks : List Html) (chunks : List (List Char)) (current : List Char),
      (∀ b ∈ blocks, (renderHtml b).length ≤ M ∧ renderHtml b ≠ []) →
      (∀ ch ∈ chunks, ch.length ≤ M) → current.length ≤ M →
      ((elemLoop M blocks chunks current).1.flatten ++ (elemLoop M blocks chunks current).2
          = chunks.flatten ++ (current ++ renderList blocks))
        ∧ (∀ ch ∈ (elemLoop M blocks chunks current).1, ch.length ≤ M)
        ∧ (elemLoop M blocks chunks current).2.length ≤ M
        ∧ ((blocks ≠ [] ∨ current ≠ []) → (elemLoop M blocks chunks current).2 ≠ []) := by
  intro blocks
  induction blocks with
  | nil =>
      intro chunks current _ hch hcur
      refine ⟨by simp [elemLoop, renderList], hch, hcur, ?_⟩
      rintro (h | h)
      · exact absurd rfl h
      · exact h
  | cons el rest ih =>
      intro chunks current hb hch hcur
      have hel := hb el (by simp)
      have hrest : ∀ b ∈ rest, (renderHtml b).length ≤ M ∧ renderHtml b ≠ [] :=
        fun b hb' => hb b (by simp [hb'])
      rw [elemLoop, if_neg (by omega)]
      by_cases hflush : M < current.length + (renderHtml el).length
      · rw [if_pos hflush]
        have hch' : ∀ ch ∈ chunks ++ [current], ch.length ≤ M := by
          intro ch hc
          rcases List.mem_append.mp hc with h | h
          · exact hch ch h
          · rcases List.mem_singleton.mp h with rfl
            exact hcur
        obtain ⟨hj, h1, h2, h3⟩ := ih (chunks ++ [current]) (renderHtml el) hrest hch' hel.1
        refine ⟨?_, h1, h2, fun _ => h3 (Or.inr hel.2)⟩
        rw [hj]
        simp [renderList]
      · rw [if_neg hflush]
        have hcur' : (current ++ renderHtml el).length ≤ M := by
          rw [List.length_append]; omega
        obtain ⟨hj, h1, h2, h3⟩ := ih chunks (current ++ renderHtml el) hrest hch hcur'
        refine ⟨?_, h1, h2, fun _ => h3 (Or.inr (by simp [hel.2]))⟩
        rw [hj]
        simp [renderList]

/-- C1 (counterexample): segmentation is NOT lossless.  `find_all` (line 180)
returns nested block elements as well, so a `div` containing a `p` contributes
both its own serialization and, again, the serialization of the nested `p`:
the concatenation of the chunks duplicates the nested content. -/
theorem c1_counterexample :
    (splitHtmlIntoChunks [Html.elem "div" [Html.elem "p" [Html.text "a".data]]] 3000).flatten ≠
      renderList [Html.elem "div" [Html.elem "p" [Html.text "a".data]]] := by
  decide

/-- C1 (amended): for documents that are flat sequences of block elements —
each top-level node a block element that contains no further block elements
and serializes to at most `M` characters — the concatenation of the emitted
chunks reconstructs the document exactly. -/
theorem c1_segmentation_lossless_flat (doc : List Html) (M : Nat)
    (h : ∀ node ∈ doc, flatBlockOk M node = true) :
    (splitHtmlIntoChunks doc M).flatten = renderList doc := by
  have hfind := findAllList_flat M doc h
  have hnodes : ∀ b ∈ doc, (renderHtml b).length ≤ M ∧ renderHtml b ≠ [] := by
    intro b hb
    have hb' := h b hb
    cases b with
    | text s => simp [flatBlockOk] at hb'
    | elem t ch =>
        simp only [flatBlockOk, Bool.and_eq_true, decide_eq_true_eq] at hb'
        refine ⟨hb'.2, ?_⟩
        rw [renderHtml]
        simp
  obtain ⟨hj, hall, hcur, hne⟩ :=
    elemLoop_flat M doc [] [] hnodes (by simp) (by simp)
  simp only [splitHtmlIntoChunks]
  rw [hfind]
  rcases eq_or_ne doc [] with rfl | hdoc
  · simp [elemLoop, renderList, sliceParts_nil]
  · have hst2 : (elemLoop M doc [] []).2 ≠ [] := hne (Or.inl hdoc)
    rw [if_neg hst2,
      if_neg (by simp : ¬ (elemLoop M doc [] []).1 ++ [(elemLoop M doc [] []).2] = []),
      finalPass_id M _ ?side]
    case side =>
      intro c hc
      rcases List.mem_append.mp hc with h' | h'
      · exact hall c h'
      · rcases List.mem_singleton.mp h' with rfl
        exact hcur
    rw [List.flatten_append]
    simpa using hj

theorem c1_segmentation_lossless_flat_witness :
    (∀ node ∈ [Html.elem "p" [Html.text "hi".data]], flatBlockOk 30 node = true) ∧
      (splitHtmlIntoChunks [Html.elem "p" [Html.text "hi".data]] 30).flatten =
        renderList [Html.elem "p" [Html.text "hi".data]] :=
  ⟨by decide, c1_segmentation_lossless_flat _ _ (by decide)⟩

/-- C2: after the final post-pass, every chunk emitted by the segmenter has
size at most `M` (both on the normal path, where the final pass re-slices any
surviving oversized chunk, and on the no-chunk fallback path). -/
theorem c2_chunk_size_bound (doc : List Html) (M : Nat) (hM : 0 < M) :
    ∀ c ∈ splitHtmlIntoChunks doc M, c.length ≤ M := by
  intro c hc
  simp only [splitHtmlIntoChunks] at hc
  split at hc <;> split at hc
  all_goals first
    | exact sliceParts_le _ M c hc
    | exact finalPass_le M _ c hc

theorem c2_chunk_size_bound_witness :
    (0 < 7) ∧ ∀ c ∈ splitHtmlIntoChunks [Html.elem "p" [Html.text "hello world".data]] 7,
      c.length ≤ 7 :=
  ⟨by decide, c2_chunk_size_bound _ 7 (by decide)⟩

/-- C5: the bisection guard at line 303 requires `len(chunk) > 1000`; under
it both pieces `chunk[:split_point]` and `chunk[split_point:]` are strictly
shorter than the parent chunk, so repeated bisection terminates. -/
theorem c5_bisection_strictly_smaller (c : List Char) (h : 1000 < c.length) :
    (c.take (splitPoint c)).length < c.length ∧
      (c.drop (splitPoint c)).length < c.length := by
  have h1 := splitPoint_pos c (by omega)
  have h2 := splitPoint_le_half c
  constructor
  · rw [List.length_take]
    omega
  · rw [List.length_drop]
    omega

theorem c5_bisection_strictly_smaller_witness :
    1000 < (List.replicate 1001 'a').length ∧
      (((List.replicate 1001 'a').take (splitPoint (List.replicate 1001 'a'))).length <
          (List.replicate 1001 'a').length ∧
        ((List.replicate 1001 'a').drop (splitPoint (List.replicate 1001 'a'))).length <
          (List.replicate 1001 'a').length) :=
  ⟨by rw [List.length_replicate]; omega,
    c5_bisection_strictly_smaller _ (by rw [List.length_replicate]; omega)⟩

/-- C10: a chunk longer than 4000 characters is handled by the no-LLM local
extraction (lines 271-278): the service is never invoked for it (no
submission, call counter unchanged) and the recorded result is the locally
cleaned copy with nav/header/footer/script/style/noscript removed. -/
theorem c10_oversize_local_clean (oracle parse hasMore num c callCt)
    (h : 4000 < c.length) :
    tryChunk oracle parse hasMore num c 0 callCt =
      ⟨some (simpleClean parse c), callCt, [], [],
        if hasMore = true then [2] else []⟩ := by
  rw [tryChunk_big oracle parse hasMore num c 0 callCt (by rw [maxRetries]; omega) h]
  simp

theorem c10_oversize_local_clean_witness :
    4000 < (List.replicate 4001 'a').length ∧
      tryChunk (fun _ _ => Outcome.ok []) (fun s => [Html.text s]) false 1
          (List.replicate 4001 'a') 0 0 =
        ⟨some (simpleClean (fun s => [Html.text s]) (List.replicate 4001 'a')), 0, [], [],
          if false = true then [2] else []⟩ :=
  ⟨by rw [List.length_replicate]; omega,
    c10_oversize_local_clean _ _ false 1 _ 0 (by rw [List.length_replicate]; omega)⟩

lemma rfindGtAux_no_gt : ∀ (l : List Char), (∀ x ∈ l, ¬ x = '>') →
    ∀ (i : Nat) (acc : Option Nat), rfindGtAux l i acc = acc := by
  intro l
  induction l with
  | nil => intro _ i acc; rfl
  | cons c cs ih =>
      intro h i acc
      rw [rfindGtAux, if_neg (h c (by simp)), ih (fun x hx => h x (by simp [hx]))]

set_option maxRecDepth 100000 in
lemma splitPoint_replicate_a :
    splitPoint (List.replicate 1001 'a') = 500 := by
  have hr : rfindGtAux (List.replicate 500 'a') 0 none = none :=
    rfindGtAux_no_gt _ (fun x hx => by rw [List.eq_of_mem_replicate hx]; decide) 0 none
  have h2 : (List.replicate 1001 'a').length / 2 = 500 := by
    rw [List.length_replicate]
  have ht : List.take ((List.replicate 1001 'a').length / 2) (List.replicate 1001 'a') =
      List.replicate 500 'a' := by
    rw [h2, List.take_replicate]
    norm_num
  show (match rfindGtAux (List.take ((List.replicate 1001 'a').length / 2)
          (List.replicate 1001 'a')) 0 none with
        | some j => j + 1
        | none => (List.replicate 1001 'a').length / 2) = 500
  rw [ht, hr]
  exact h2

set_option maxRecDepth 100000 in
/-- C6 (counterexample): when the rate-limit error message also carries
"Request too large" and the chunk exceeds 1000 characters, the chunk is NOT
resubmitted unchanged: the second submission is the first half only. -/
theorem c6_counterexample :
    (tryChunk (fun _ _ => Outcome.err true true) (fun _ => []) false 1
        (List.replicate 1001 'a') 0 0).submitted.getD 1 [] ≠
      List.replicate 1001 'a' := by
  have hlen : (List.replicate 1001 'a').length = 1001 := by rw [List.length_replicate]
  have h500 : (List.replicate 500 'a').length = 500 := by rw [List.length_replicate]
  have ht : List.take 500 (List.replicate 1001 'a') = List.replicate 500 'a' := by
    rw [List.take_replicate]
    norm_num
  rw [tryChunk_rl_split (fun _ _ => Outcome.err true true) (fun _ => []) false 1
      (List.replicate 1001 'a') 0 0 true (by rw [maxRetries]; omega)
      (by rw [hlen]; omega) rfl ⟨rfl, by rw [hlen]; omega⟩]
  rw [splitPoint_replicate_a, ht]
  rw [tryChunk_rl_same (fun _ _ => Outcome.err true true) (fun _ => []) false 1
      (List.replicate 500 'a') 1 1 true (by rw [maxRetries]; omega)
      (by rw [h500]; omega) rfl (by rw [h500]; omega)]
  rw [tryChunk_rl_same (fun _ _ => Outcome.err true true) (fun _ => []) false 1
      (List.replicate 500 'a') 2 2 true (by rw [maxRetries]; omega)
      (by rw [h500]; omega) rfl (by rw [h500]; omega)]
  rw [tryChunk_stop (fun _ _ => Outcome.err true true) (fun _ => []) false 1
      (List.replicate 500 'a') 3 3 (by rw [maxRetries]; omega)]
  decide

/-- C6 (amended): whenever the service signals rate-limiting and the error
does not also signal an oversized request on a chunk longer than 1000
characters, the transformer sleeps `15 * 2 ^ attempt` seconds (attempt =
retries+1, bounded by `max_retries = 3`) and resubmits the same chunk content
unchanged; the oversized-signal case instead bisects the chunk (lines
297-319). -/
theorem c6_rate_limit_backoff_resubmit (oracle parse hasMore num c retries callCt tl)
    (h1 : retries < maxRetries) (h2 : ¬ 4000 < c.length)
    (h3 : oracle callCt c = .err true tl) (h4 : tl = false ∨ c.length ≤ 1000) :
    tryChunk oracle parse hasMore num c retries callCt =
      ⟨(tryChunk oracle parse hasMore num c (retries + 1) (callCt + 1)).result,
       (tryChunk oracle parse hasMore num c (retries + 1) (callCt + 1)).callCt,
       (tryChunk oracle parse hasMore num c (retries + 1) (callCt + 1)).inserted,
       c :: (tryChunk oracle parse hasMore num c (retries + 1) (callCt + 1)).submitted,
       15 * 2 ^ (retries + 1) ::
         (tryChunk oracle parse hasMore num c (retries + 1) (callCt + 1)).waits⟩ := by
  have h4' : ¬ (tl = true ∧ 1000 < c.length) := by
    rcases h4 with h | h
    · simp [h]
    · rintro ⟨_, hh⟩
      omega
  exact tryChunk_rl_same oracle parse hasMore num c retries callCt tl h1 h2 h3 h4'

theorem c6_rate_limit_backoff_resubmit_witness :
    (0 < maxRetries ∧ ¬ 4000 < [' '].length ∧
        (fun (_ : Nat) (_ : List Char) => Outcome.err true false) 0 [' '] =
          Outcome.err true false) ∧
      tryChunk (fun _ _ => Outcome.err true false) (fun _ => []) false 1 [' '] 0 0 =
        ⟨(tryChunk (fun _ _ => Outcome.err true false) (fun _ => []) false 1 [' '] 1 1).result,
         (tryChunk (fun _ _ => Outcome.err true false) (fun _ => []) false 1 [' '] 1 1).callCt,
         (tryChunk (fun _ _ => Outcome.err true false) (fun _ => []) false 1 [' '] 1 1).inserted,
         [' '] :: (tryChunk (fun _ _ => Outcome.err true false) (fun _ => []) false 1
            [' '] 1 1).submitted,
         15 * 2 ^ 1 :: (tryChunk (fun _ _ => Outcome.err true false) (fun _ => []) false 1
            [' '] 1 1).waits⟩ :=
  ⟨⟨by decide, by decide, rfl⟩,
    c6_rate_limit_backoff_resubmit _ _ false 1 [' '] 0 0 false
      (by decide) (by decide) rfl (Or.inl rfl)⟩

/-- C3 (counterexample): a chunk whose three retries are all rate-limit
errors is silently dropped — the `while` loop exits with `success = False`
and nothing is appended (the inline marker is only appended on the
non-rate-limit path, line 329).  With a single one-character chunk and a
service that always rate-limits, the transformer returns zero results for
one chunk. -/
theorem c3_counterexample :
    (chunkLoop (fun _ _ => Outcome.err true false) (fun _ => []) [['a']] 0 0).results.length ≠
      (chunkLoop (fun _ _ => Outcome.err true false) (fun _ => []) [['a']] 0 0).chunksOut.length := by
  have hs : tryChunk (fun _ _ => Outcome.err true false) (fun _ => [])
      (!(List.isEmpty ([] : List (List Char)))) 1 ['a'] 0 0 =
      ⟨none, 3, [], [['a'], ['a'], ['a']], [30, 60, 120]⟩ := by
    simp only [List.isEmpty_nil, Bool.not_true]
    rw [tryChunk_rl_same (fun _ _ => Outcome.err true false) (fun _ => []) false 1
        ['a'] 0 0 false (by decide) (by decide) rfl (by decide)]
    rw [tryChunk_rl_same (fun _ _ => Outcome.err true false) (fun _ => []) false 1
        ['a'] 1 1 false (by decide) (by decide) rfl (by decide)]
    rw [tryChunk_rl_same (fun _ _ => Outcome.err true false) (fun _ => []) false 1
        ['a'] 2 2 false (by decide) (by decide) rfl (by decide)]
    rw [tryChunk_stop (fun _ _ => Outcome.err true false) (fun _ => []) false 1
        ['a'] 3 3 (by decide)]
    decide
  simp only [chunkLoop, hs, List.append_nil, List.nil_append]
  decide

lemma chunkLoop_results_le (oracle parse) :
    ∀ (pending : List (List Char)) (i callCt : Nat),
      (chunkLoop oracle parse pending i callCt).results.length ≤
        (chunkLoop oracle parse pending i callCt).chunksOut.length := by
  intro pending i callCt
  induction pending, i, callCt using chunkLoop.induct oracle parse with
  | case1 i callCt => simp [chunkLoop]
  | case2 c rest i callCt s ih =>
      have hseq : s = tryChunk oracle parse (!rest.isEmpty) (i + 1) c 0 callCt := rfl
      rw [hseq] at ih
      simp only [chunkLoop, List.length_append, List.length_cons]
      have hopt : (match (tryChunk oracle parse (!rest.isEmpty) (i + 1) c 0 callCt).result with
          | some r => [r] | none => ([] : List (List Char))).length ≤ 1 := by
        cases (tryChunk oracle parse (!rest.isEmpty) (i + 1) c 0 callCt).result <;> simp
      omega

/-- C3 (amended): the transformer emits at most one TransformResult per chunk
of the runtime-grown chunk sequence, in chunk order (results never outnumber
chunks), and a chunk whose three retries are exhausted on non-rate-limit
errors is represented by the inline diagnostic marker; a chunk exhausted
solely through rate-limit errors is silently dropped (see the
counterexample), so equality of lengths does not hold in general. -/
theorem c3_results_per_chunk :
    (∀ (oracle : Nat → List Char → Outcome) (parse : List Char → List Html)
        (pending : List (List Char)) (i callCt : Nat),
      (chunkLoop oracle parse pending i callCt).results.length ≤
        (chunkLoop oracle parse pending i callCt).chunksOut.length) ∧
    (∀ (oracle : Nat → List Char → Outcome) (parse : List Char → List Html)
        (hasMore : Bool) (num : Nat) (c : List Char) (callCt : Nat),
      c.length ≤ 4000 →
      (∀ k, k < 3 → ∃ tl, oracle (callCt + k) c = Outcome.err false tl) →
      (tryChunk oracle parse hasMore num c 0 callCt).result = some (errorComment num)) := by
  constructor
  · exact fun oracle parse => chunkLoop_results_le oracle parse
  · intro oracle parse hasMore num c callCt hle H
    obtain ⟨tl0, h0⟩ := H 0 (by omega)
    obtain ⟨tl1, h1⟩ := H 1 (by omega)
    obtain ⟨tl2, h2⟩ := H 2 (by omega)
    rw [Nat.add_zero] at h0
    rw [tryChunk_err_retry oracle parse hasMore num c 0 callCt tl0
        (by rw [maxRetries]; omega) (by omega) h0 (by rw [maxRetries]; omega)]
    rw [tryChunk_err_retry oracle parse hasMore num c 1 (callCt + 1) tl1
        (by rw [maxRetries]; omega) (by omega) h1 (by rw [maxRetries]; omega)]
    rw [tryChunk_err_last oracle parse hasMore num c 2 (callCt + 1 + 1) tl2
        (by rw [maxRetries]; omega) (by omega) (by rw [show callCt + 1 + 1 = callCt + 2 by omega]; exact h2)
        (by rw [maxRetries]; omega)]

theorem c3_results_per_chunk_witness :
    ((chunkLoop (fun _ _ => Outcome.ok ['x']) (fun _ => []) [['a'], ['b']] 0 0).results.length ≤
        (chunkLoop (fun _ _ => Outcome.ok ['x']) (fun _ => []) [['a'], ['b']] 0 0).chunksOut.length) ∧
      ((['a'] : List Char).length ≤ 4000 ∧
        (tryChunk (fun _ _ => Outcome.err false false) (fun _ => []) false 1 ['a'] 0 0).result =
          some (errorComment 1)) :=
  ⟨c3_results_per_chunk.1 _ _ [['a'], ['b']] 0 0,
    by decide,
    c3_results_per_chunk.2 (fun _ _ => Outcome.err false false) (fun _ => []) false 1 ['a'] 0
      (by decide) (fun k _ => ⟨false, rfl⟩)⟩

/-- C4: the final chunk list is the original chunks, in order, each
immediately followed by the chunks inserted while it was processed (bisection
inserts at `i+1`, after the current position, never before), and the chunk
count never decreases. -/
theorem c4_insertion_preserves_order :
    ∀ (oracle : Nat → List Char → Outcome) (parse : List Char → List Html)
      (pending : List (List Char)) (i callCt : Nat),
      pending.length ≤ (chunkLoop oracle parse pending i callCt).chunksOut.length ∧
      ∃ ds : List (List (List Char)), ds.length = pending.length ∧
        (chunkLoop oracle parse pending i callCt).chunksOut =
          (List.zipWith (fun c d => c :: d) pending ds).flatten := by
  intro oracle parse pending i callCt
  induction pending, i, callCt using chunkLoop.induct oracle parse with
  | case1 i callCt =>
      exact ⟨by simp [chunkLoop], [], rfl, by simp [chunkLoop]⟩
  | case2 c rest i callCt s ih =>
      have hseq : s = tryChunk oracle parse (!rest.isEmpty) (i + 1) c 0 callCt := rfl
      rw [hseq] at ih
      obtain ⟨hlen, ds', hdl, hdeq⟩ := ih
      have hds'len : ds'.length =
          (tryChunk oracle parse (!rest.isEmpty) (i + 1) c 0 callCt).inserted.length +
            rest.length := by
        rw [hdl, List.length_append]
      constructor
      · simp only [chunkLoop, List.length_cons]
        rw [List.length_append] at hlen
        omega
      · have htake : (ds'.take
            (tryChunk oracle parse (!rest.isEmpty) (i + 1) c 0 callCt).inserted.length).length =
            (tryChunk oracle parse (!rest.isEmpty) (i + 1) c 0 callCt).inserted.length := by
          rw [List.length_take]
          omega
        refine ⟨(List.zipWith (fun c d => c :: d)
            (tryChunk oracle parse (!rest.isEmpty) (i + 1) c 0 callCt).inserted
            (ds'.take
              (tryChunk oracle parse (!rest.isEmpty) (i + 1) c 0 callCt).inserted.length)).flatten ::
            ds'.drop (tryChunk oracle parse (!rest.isEmpty) (i + 1) c 0 callCt).inserted.length,
          ?_, ?_⟩
        · simp only [List.length_cons, List.length_drop]
          omega
        · simp only [chunkLoop]
          rw [hdeq]
          conv_lhs => rw [show ds' = ds'.take
              (tryChunk oracle parse (!rest.isEmpty) (i + 1) c 0 callCt).inserted.length ++
              ds'.drop
                (tryChunk oracle parse (!rest.isEmpty) (i + 1) c 0 callCt).inserted.length
            from (List.take_append_drop _ _).symm]
          rw [List.zipWith_append _ _ _ _ _ htake.symm, List.flatten_append]
          simp [List.zipWith_cons_cons]

lemma passLoop_batches (oracle : ConsolidateOracle) (k0 : Nat) :
    ∀ results : List (List Char),
      (passLoop oracle k0 results).2.1 = positionalBatches results := by
  suffices H : ∀ (n : Nat) (results : List (List Char)), results.length ≤ n →
      (List.range ((results.length + batchSize - 1) / batchSize)).map
          (fun j => (results.drop (j * batchSize)).take batchSize) =
        positionalBatches results by
    intro results
    exact H results.length results le_rfl
  intro n
  induction n with
  | zero =>
      intro results h
      have hr : results = [] := List.length_eq_zero.mp (by omega)
      subst hr
      simp [positionalBatches, batchSize]
  | succ n ih =>
      intro results h
      rcases results with _ | ⟨r, rs⟩
      · simp [positionalBatches, batchSize]
      · have hlen : 1 ≤ (r :: rs).length := by simp
        have hcnt : ((r :: rs).length + batchSize - 1) / batchSize =
            (((r :: rs).drop batchSize).length + batchSize - 1) / batchSize + 1 := by
          rw [List.length_drop]
          simp only [batchSize, List.length_cons]
          omega
        rw [hcnt, List.range_succ_eq_map, List.map_cons, List.map_map]
        rw [positionalBatches]
        refine congrArg₂ List.cons (by simp) ?_
        have hrec := ih ((r :: rs).drop batchSize)
          (by rw [List.length_drop]; simp only [batchSize, List.length_cons] at h ⊢; omega)
        simp only [List.length_drop, List.length_cons] at hrec ⊢
        rw [← hrec]
        apply List.map_congr_left
        intro j _
        simp only [Function.comp_apply, List.drop_drop]
        congr 2
        rw [Nat.succ_mul]
        ring_nf

lemma passLoop_frags_length (oracle : ConsolidateOracle) (k0 : Nat)
    (results : List (List Char)) :
    (passLoop oracle k0 results).1.length = (positionalBatches results).length := by
  rw [← passLoop_batches oracle k0 results]
  simp [passLoop]

lemma positionalBatches_le (l : List (List Char)) :
    ∀ b ∈ positionalBatches l, b.length ≤ batchSize := by
  intro b hb
  rw [← passLoop_batches (fun _ _ => none) 0 l] at hb
  simp only [passLoop, List.mem_map] at hb
  obtain ⟨j, _, rfl⟩ := hb
  rw [List.length_take]
  omega

lemma consolidateResults_batches (oracle : ConsolidateOracle)
    (results : List (List Char)) (h : 1 < results.length) :
    (consolidateResults oracle results).batches =
      positionalBatches results ++
        (if 1 < (positionalBatches results).length
         then [(passLoop oracle 0 results).1] else []) := by
  have hb := passLoop_batches oracle 0 results
  have hf := passLoop_frags_length oracle 0 results
  simp only [consolidateResults, if_pos h]
  by_cases h2 : 1 < (passLoop oracle 0 results).1.length
  · rw [if_pos h2, if_pos (by omega)]
    cases horacle : oracle (passLoop oracle 0 results).2.2 (passLoop oracle 0 results).1 <;>
      simp [horacle, hb]
  · rw [if_neg h2, if_neg (by omega)]
    simp [hb]

set_option maxRecDepth 100000 in
/-- C7 (counterexample): the ConsolidationBatch for five 801-character
results has all 5 members and combined size 4005, above the 4000 threshold
the code itself uses as a service size limit elsewhere — no size check or
batch shrinking exists. -/
theorem c7_counterexample :
    ((consolidateResults (fun _ _ => none)
        (List.replicate 5 (List.replicate 801 'a'))).batches.getD 0 []).length = 5 ∧
      4000 < sumLen ((consolidateResults (fun _ _ => none)
        (List.replicate 5 (List.replicate 801 'a'))).batches.getD 0 []) := by
  have hb : (consolidateResults (fun _ _ => none)
      (List.replicate 5 (List.replicate 801 'a'))).batches.getD 0 [] =
      List.replicate 5 (List.replicate 801 'a') := by decide
  rw [hb]
  constructor
  · rw [List.length_replicate]
  · simp only [sumLen, List.map_replicate, List.length_replicate, List.sum_replicate,
      smul_eq_mul]
    omega

/-- C7 (amended): the grouping of a consolidation pass is purely positional —
exactly the `results[i:i+batch_size]` slices, whatever the sizes of the
fragments — with at most `batch_size = 5` members per batch; the combined
character size of a batch is never inspected and the batch size is never
shrunk. -/
theorem c7_positional_batches_unchecked :
    ∀ (oracle : ConsolidateOracle) (k0 : Nat) (results : List (List Char)),
      (passLoop oracle k0 results).2.1 = positionalBatches results ∧
        ∀ b ∈ (passLoop oracle k0 results).2.1, b.length ≤ batchSize := by
  intro oracle k0 results
  refine ⟨passLoop_batches oracle k0 results, ?_⟩
  rw [passLoop_batches oracle k0 results]
  exact positionalBatches_le results

theorem c7_positional_batches_unchecked_witness :
    ((passLoop (fun _ _ => none) 0 [['x'], ['y']]).2.1 =
        positionalBatches [['x'], ['y']]) ∧
      ([['x'], ['y']] ∈ (passLoop (fun _ _ => none) 0 [['x'], ['y']]).2.1 ∧
        ([['x'], ['y']] : List (List Char)).length ≤ batchSize) :=
  ⟨(c7_positional_batches_unchecked (fun _ _ => none) 0 [['x'], ['y']]).1,
    by decide,
    (c7_positional_batches_unchecked (fun _ _ => none) 0 [['x'], ['y']]).2
      [['x'], ['y']] (by decide)⟩

/-- C8 (counterexample): with 30 results the first pass leaves 6 consolidated
fragments, and the code then performs ONE final consolidation call over all 6
of them (line 364-368) instead of repeating the batch-size-5 grouping pass:
a submitted batch has 6 > 5 members. -/
theorem c8_counterexample :
    ¬ (∀ b ∈ (consolidateResults (fun _ _ => none)
        (List.replicate 30 (['a'] : List Char))).batches, b.length ≤ 5) := by
  intro H
  have hmem : (passLoop (fun _ _ => none) 0 (List.replicate 30 (['a'] : List Char))).1 ∈
      (consolidateResults (fun _ _ => none) (List.replicate 30 (['a'] : List Char))).batches := by
    decide
  have := H _ hmem
  have hlen : (passLoop (fun _ _ => none) 0
      (List.replicate 30 (['a'] : List Char))).1.length = 6 := by decide
  omega

/-- C8 (amended): for more than one TransformResult, the reducer performs a
single positional grouping pass into consecutive batches of `batch_size = 5`
(in order, one consolidated fragment per batch), and then — if more than one
consolidated fragment remains — submits ALL remaining fragments in one final
consolidation call, regardless of their number; it does not repeat the
grouping pass.  (For 12 results this gives 3 batches (5,5,2) in pass 1 and a
single final call over the 3 fragments, matching the claimed scenario.) -/
theorem c8_single_final_consolidation (oracle : ConsolidateOracle)
    (results : List (List Char)) (h : 1 < results.length) :
    (consolidateResults oracle results).batches =
      positionalBatches results ++
        (if 1 < (positionalBatches results).length
         then [(passLoop oracle 0 results).1] else []) ∧
      (passLoop oracle 0 results).1.length = (positionalBatches results).length :=
  ⟨consolidateResults_batches oracle results h, passLoop_frags_length oracle 0 results⟩

theorem c8_single_final_consolidation_witness :
    1 < (List.replicate 12 (['a'] : List Char)).length ∧
      ((consolidateResults (fun _ _ => none) (List.replicate 12 (['a'] : List Char))).batches =
        positionalBatches (List.replicate 12 (['a'] : List Char)) ++
          (if 1 < (positionalBatches (List.replicate 12 (['a'] : List Char))).length
           then [(passLoop (fun _ _ => none) 0 (List.replicate 12 (['a'] : List Char))).1]
           else []) ∧
        (passLoop (fun _ _ => none) 0 (List.replicate 12 (['a'] : List Char))).1.length =
          (positionalBatches (List.replicate 12 (['a'] : List Char))).length) :=
  ⟨by rw [List.length_replicate]; omega,
    c8_single_final_consolidation _ _ (by rw [List.length_replicate]; omega)⟩

/-- C9: a TransformResult sequence of length exactly 1 triggers no
consolidation call (`len(results) > 1` is false; `elif results:` returns
`results[0]` directly, line 375): the single result is returned unchanged
and no batch is ever submitted. -/
theorem c9_single_result_identity (oracle : ConsolidateOracle) (r : List Char) :
    consolidateResults oracle [r] = ⟨r, []⟩ := rfl

